import Mathlib

/-!
# Verification of the `htpasswd` credential parser and validator

A shallow embedding of the crate's core:

* `src/src/parse.rs` — the nom-4 based parser (`bcrypt_pw`, `sha1_pw`,
  `md5_pw`, `crypt_pw`, `password`, `user`, `entry`, `entries`,
  `parse_entries`) over `nom_locate::LocatedSpan<CompleteStr>`.
  Spans track byte offset, 1-based line and 1-based (byte) column.
* `src/htpasswd_db/src/lib.rs` — `PasswordDB::validate`, with the external
  `bcrypt::verify` primitive modelled as an oracle parameter.
* `src/htpasswd_db/src/errors.rs` — `AuthError` / `BadCredentials` and
  their `Display` implementations.

Strings are embedded as `List Char`; offsets and columns advance by
`Char.utf8Size`, matching `str` byte positions and `nom_locate`'s
byte-counting `get_column`.
-/

namespace Htpasswd

/-- Rust `String` / `&str` contents, embedded as a list of characters. -/
abbrev Str := List Char

/-- UTF-8 byte length of a string, as used for `LocatedSpan` offsets. -/
def utf8Len (s : Str) : Nat := (s.map Char.utf8Size).sum

/-- `ParseErrorKind` from `src/src/parse.rs`. -/
inductive ParseErrorKind where
  | BadUsername
  | BadPassword
  | GarbageAtEnd
  | BrokenHtpasswd
  | Unknown
deriving DecidableEq, Repr

/-- `impl From<u32> for ParseErrorKind` — every `u32` code maps to `Unknown`. -/
def parseErrorKindFromU32 (_ : Nat) : ParseErrorKind := .Unknown

/-- `nom_locate::LocatedSpan<CompleteStr>`: byte offset, 1-based line,
the remaining input fragment.  The 1-based byte column (computed on demand by
`get_column` in `nom_locate`) is tracked as a field, maintained in lockstep. -/
structure Span where
  offset : Nat
  line : Nat
  col : Nat
  rest : Str
deriving DecidableEq, Repr

/-- `Span::new` — the parser's starting position on a fresh input. -/
def Span.new (input : Str) : Span := ⟨0, 1, 1, input⟩

/-- Consume one character from a span, updating offset / line / column the way
`nom_locate` slicing and `get_column` do (bytes; line bumps and column resets
after a `'\n'`). -/
def advance1 (s : Span) : Span :=
  match s.rest with
  | [] => s
  | c :: cs =>
    if c = '\n' then ⟨s.offset + c.utf8Size, s.line + 1, 1, cs⟩
    else ⟨s.offset + c.utf8Size, s.line, s.col + c.utf8Size, cs⟩

/-- Consume `n` characters from a span. -/
def advanceN (s : Span) : Nat → Span
  | 0 => s
  | n + 1 => advanceN (advance1 s) n

/-- Result of running a nom parser: `Ok`, a recoverable `Err::Error`, or a
non-backtrackable `Err::Failure`.  Errors carry `Context::Code(span, kind)`
where `kind` is `some k` for `ErrorKind::Custom(k)` and `none` for any
built-in nom error kind. -/
inductive PResult (α : Type) where
  | ok (rest : Span) (val : α)
  | error (pos : Span) (kind : Option ParseErrorKind)
  | failure (pos : Span) (kind : Option ParseErrorKind)
deriving DecidableEq, Repr

/-- Sequencing inside `do_parse!`: errors and failures propagate unchanged. -/
def pbind {α β : Type} (p : Span → PResult α) (f : α → Span → PResult β)
    (s : Span) : PResult β :=
  match p s with
  | .ok s1 a => f a s1
  | .error pos k => .error pos k
  | .failure pos k => .failure pos k

/-- The trailing value-construction step of a `do_parse!`. -/
def pok {α : Type} (a : α) (s : Span) : PResult α := .ok s a

/-- `alt!` between two branches: a recoverable error backtracks to the second
branch, a failure aborts the whole alternation. -/
def altP {α : Type} (p q : Span → PResult α) (s : Span) : PResult α :=
  match p s with
  | .error _ _ => q s
  | r => r

/-- `peek!`: run the parser but rewind to the original input on success. -/
def peekP {α : Type} (p : Span → PResult α) (s : Span) : PResult α :=
  match p s with
  | .ok _ v => .ok s v
  | r => r

/-- `return_error!(ErrorKind::Custom(code), p)`: on any error or failure of
`p`, abort with `Err::Failure(Context::Code(input, Custom(code)))`, positioned
at the input `return_error!` itself started at. -/
def return_error {α : Type} (code : ParseErrorKind) (p : Span → PResult α)
    (s : Span) : PResult α :=
  match p s with
  | .ok s1 v => .ok s1 v
  | .error _ _ => .failure s (some code)
  | .failure _ _ => .failure s (some code)

/-- `tag!`: match a literal prefix or fail with a recoverable error. -/
def tagP (t : Str) (s : Span) : PResult Str :=
  if t.isPrefixOf s.rest then .ok (advanceN s t.length) t
  else .error s none

/-- `is_not!(":")`: consume one or more characters other than `':'`. -/
def isNotColon (s : Span) : PResult Str :=
  let tok := s.rest.takeWhile (fun c => !(c == ':'))
  if tok.isEmpty then .error s none
  else .ok (advanceN s tok.length) tok

/-- A character ending a line (`'\r'` or `'\n'`). -/
def isLineEnd (c : Char) : Bool := c = '\r' || c = '\n'

/-- nom's `not_line_ending` on complete input: consume up to the first `'\r'`
or `'\n'` (or all of the input); a `'\r'` not followed by `'\n'` is a
recoverable error at the original position. -/
def notLineEnding (s : Span) : PResult Str :=
  let line := s.rest.takeWhile (fun c => !(isLineEnd c))
  match s.rest.drop line.length with
  | [] => .ok (advanceN s line.length) line
  | '\n' :: _ => .ok (advanceN s line.length) line
  | '\r' :: '\n' :: _ => .ok (advanceN s line.length) line
  | _ => .error s none

/-- nom's `line_ending`: consume `"\n"` or `"\r\n"`. -/
def lineEnding (s : Span) : PResult Str :=
  match s.rest with
  | '\n' :: _ => .ok (advanceN s 1) ['\n']
  | '\r' :: '\n' :: _ => .ok (advanceN s 2) ['\r', '\n']
  | _ => .error s none

/-- `eof!()` on complete input: succeed exactly on empty remaining input. -/
def eofP (s : Span) : PResult Unit :=
  if s.rest.isEmpty then .ok s () else .error s none

/-- `opt!(line_ending)`: a recoverable error becomes `none`. -/
def optLineEnding (s : Span) : PResult (Option Str) :=
  match lineEnding s with
  | .ok s1 v => .ok s1 (some v)
  | .error _ _ => .ok s none
  | .failure pos k => .failure pos k

/-- `not_record_ending` from `src/src/parse.rs`: like `not_line_ending`, but
an empty line is promoted to `Err::Failure(Context::Code(rest, Custom(0u32)))`
(the `u32` code later converted by `fix_error!` through
`From<u32> for ParseErrorKind`). -/
def not_record_ending (s : Span) : PResult Str :=
  match notLineEnding s with
  | .ok rest line =>
    if line.isEmpty then .failure rest (some (parseErrorKindFromU32 0))
    else .ok rest line
  | e => e

/-- `PasswordHash` from `src/htpasswd_db/src/lib.rs`. -/
inductive PasswordHash where
  | Bcrypt (hash : Str)
  | SHA1 (hash : Str)
  | MD5 (hash : Str)
  | Crypt (hash : Str)
deriving DecidableEq, Repr

/-- `bcrypt_pw`: peek one of the bcrypt tags, then take the whole rest of the
line (tag included) as the hash. -/
def bcrypt_pw (s : Span) : PResult PasswordHash :=
  pbind (peekP (altP (tagP "$2a$".data) (altP (tagP "$2y$".data) (tagP "$2b$".data))))
    (fun _ => pbind not_record_ending (fun pw => pok (.Bcrypt pw))) s

/-- `sha1_pw`: consume the `{SHA}` tag, then the rest of the line. -/
def sha1_pw (s : Span) : PResult PasswordHash :=
  pbind (tagP "{SHA}".data)
    (fun _ => pbind not_record_ending (fun pw => pok (.SHA1 pw))) s

/-- `md5_pw`: consume the `$apr1$` tag, then the rest of the line. -/
def md5_pw (s : Span) : PResult PasswordHash :=
  pbind (tagP "$apr1$".data)
    (fun _ => pbind not_record_ending (fun pw => pok (.MD5 pw))) s

/-- `crypt_pw`: the whole rest of the line. -/
def crypt_pw (s : Span) : PResult PasswordHash :=
  pbind not_record_ending (fun pw => pok (.Crypt pw)) s

/-- `password`: the prioritized alternation of the four schemes, wrapped in
`return_error!(Custom(BadPassword), ...)`. -/
def password (s : Span) : PResult PasswordHash :=
  return_error .BadPassword (altP bcrypt_pw (altP sha1_pw (altP md5_pw crypt_pw))) s

/-- `user`: `terminated!(is_not!(":"), tag!(":"))`, wrapped in
`return_error!(Custom(BadUsername), ...)`; the value is the user name. -/
def user (s : Span) : PResult Str :=
  return_error .BadUsername
    (pbind isNotColon (fun u => pbind (tagP [':']) (fun _ => pok u))) s

/-- `entry`: a user name followed by a password hash. -/
def entry (s : Span) : PResult (Str × PasswordHash) :=
  pbind user (fun u => pbind password (fun ph => pok (u, ph))) s

/-- The separator of `separated_list!`: `fix_error!(ParseErrorKind, tag!("\n"))`. -/
def sepTag (s : Span) : PResult Str := tagP ['\n'] s

/-- The loop of nom's `separated_list!(tag!("\n"), entry)`: parse a separator
then an element; a recoverable error ends the list (rewinding before the
separator), a failure aborts, and a step that consumes no input is a
`SeparatedList` error.  Fuel bounds the iteration count; the top-level caller
passes more fuel than there are characters, so the `0` case is unreachable. -/
def sepEntriesLoop : Nat → Span → List (Str × PasswordHash) →
    PResult (List (Str × PasswordHash))
  | 0, i, _ => .error i none
  | fuel + 1, i, res =>
    match sepTag i with
    | .error _ _ => .ok i res
    | .failure pos k => .failure pos k
    | .ok i1 _ =>
      if i1 = i then .error i1 none
      else
        match entry i1 with
        | .error _ _ => .ok i res
        | .failure pos k => .failure pos k
        | .ok i2 o =>
          if i2 = i then .error i2 none
          else sepEntriesLoop fuel i2 (res ++ [o])

/-- nom's `separated_list!(fix_error!(ParseErrorKind, tag!("\n")), entry)`:
an initial recoverable error yields the empty list, an initial failure aborts,
then the loop runs. -/
def separated_entries (s : Span) : PResult (List (Str × PasswordHash)) :=
  match entry s with
  | .error _ _ => .ok s []
  | .failure pos k => .failure pos k
  | .ok i1 o =>
    if i1 = s then .error i1 none
    else sepEntriesLoop (s.rest.length + 1) i1 [o]

/-- `entries`: the separated list, a `terminated!` optional line ending, then
`return_error!(Custom(GarbageAtEnd), fix_error!(ParseErrorKind, eof!()))`. -/
def entries (s : Span) : PResult (List (Str × PasswordHash)) :=
  pbind separated_entries (fun es =>
    pbind optLineEnding (fun _ =>
      pbind (return_error .GarbageAtEnd eofP) (fun _ => pok es))) s

/-- `ParseFailure` from `src/src/parse.rs`. -/
structure ParseFailure where
  kind : ParseErrorKind
  offset : Nat
  line : Nat
  column : Nat
deriving DecidableEq, Repr

/-- `ParseFailure::default()`. -/
def ParseFailure.default : ParseFailure := ⟨.Unknown, 0, 0, 0⟩

/-- `impl From<ParseError> for ParseFailure`: a `Custom` kind carries the
span's offset, line and column; any other kind indicates a bug and maps to
`ParseFailure::default()`. -/
def parseFailureOf (pos : Span) (kind : Option ParseErrorKind) : ParseFailure :=
  match kind with
  | some k => ⟨k, pos.offset, pos.line, pos.col⟩
  | none => ParseFailure.default

/-- The credential table: `HashMap<String, PasswordHash>` modelled as an
association list, newest binding first. -/
abbrev HashMapL := List (Str × PasswordHash)

/-- `HashMap::insert`, modelled observationally: the new binding is placed in
front, so `getHM` (which scans front to back) sees the newest binding for a
key, exactly as `HashMap::get` sees the last `insert`. -/
def insertHM (m : HashMapL) (k : Str) (v : PasswordHash) : HashMapL :=
  (k, v) :: m

/-- `HashMap::get`. -/
def getHM : HashMapL → Str → Option PasswordHash
  | [], _ => none
  | (k, v) :: m, u => if k = u then some v else getHM m u

/-- `entries.into_iter().collect::<HashMap<_, _>>()`: insert each pair in
order, so a later duplicate key overwrites an earlier one. -/
def collectHM (l : List (Str × PasswordHash)) : HashMapL :=
  l.foldl (fun m p => insertHM m p.1 p.2) []

/-- `parse_entries` from `src/src/parse.rs`: run `entries` on a fresh span and
either collect the pairs into the hash map or convert the nom error into a
`ParseFailure`. -/
def parse_entries (input : Str) : Except ParseFailure HashMapL :=
  match entries (Span.new input) with
  | .ok _ es => .ok (collectHM es)
  | .error pos k => .error (parseFailureOf pos k)
  | .failure pos k => .error (parseFailureOf pos k)

/-- The opaque error type of the external `bcrypt` crate. -/
structure BcryptError where
  code : Nat
deriving DecidableEq, Repr

/-- `BadCredentials` from `src/htpasswd_db/src/errors.rs` (the variant
payloads follow `src/src/errors.rs`, where `NoSuchUser` carries the name). -/
inductive BadCredentials where
  | NoSuchUser (user : Str)
  | InvalidPassword
  | InsecureStorage
deriving DecidableEq, Repr

/-- `AuthError` from `src/htpasswd_db/src/errors.rs`. -/
inductive AuthError where
  | NotAuthenticated (creds : BadCredentials)
  | StorageError (err : BcryptError)
deriving DecidableEq, Repr

/-- `impl Display for AuthError`: unconditionally the generic message. -/
def AuthError.display (_ : AuthError) : String := "Authentication failed."

/-- `impl Display for BadCredentials`: unconditionally the generic message. -/
def BadCredentials.display (_ : BadCredentials) : String := "Authentication failed."

/-- `PasswordDB` from `src/htpasswd_db/src/lib.rs`. -/
abbrev PasswordDB := HashMapL

/-- `PasswordDB::validate`, with the external `bcrypt::verify` primitive
passed in as the oracle `verify : password → hash → match or error`. -/
def validate (db : PasswordDB) (verify : Str → Str → Except BcryptError Bool)
    (u : Str) (pw : Str) : Except AuthError Unit :=
  match getHM db u with
  | none => .error (.NotAuthenticated (.NoSuchUser u))
  | some hash =>
    match hash with
    | .Bcrypt h =>
      match verify pw h with
      | .ok true => .ok ()
      | .ok false => .error (.NotAuthenticated .InvalidPassword)
      | .error e => .error (.StorageError e)
    | _ => .error (.NotAuthenticated .InsecureStorage)

/-- Is a hash stored under one of the legacy schemes? -/
def PasswordHash.isLegacy : PasswordHash → Bool
  | .Bcrypt _ => false
  | _ => true

/-- Spec-modelled classifier for the password field, following the words of
§4.1: fixed-priority prefix matching — bcrypt tags first (value keeps the
prefix), then `{SHA}` and `$apr1$` (value is the text after the tag), then
the whole line as legacy crypt; `none` when the matched scheme's value would
be empty (the `BadPassword` case). -/
def specClassify (field : Str) : Option PasswordHash :=
  if "$2a$".data.isPrefixOf field || "$2y$".data.isPrefixOf field
      || "$2b$".data.isPrefixOf field then
    some (.Bcrypt field)
  else if "{SHA}".data.isPrefixOf field then
    let v := field.drop 5
    if v.isEmpty then none else some (.SHA1 v)
  else if "$apr1$".data.isPrefixOf field then
    let v := field.drop 6
    if v.isEmpty then none else some (.MD5 v)
  else if field.isEmpty then none
  else some (.Crypt field)

/-! ## Position bookkeeping lemmas -/

theorem advance1_rest (s : Span) : (advance1 s).rest = s.rest.tail := by
  cases hr : s.rest with
  | nil => simp [advance1, hr]
  | cons c cs => by_cases h : c = '\n' <;> simp [advance1, hr, h]

theorem advance1_of_nil (s : Span) (h : s.rest = []) : advance1 s = s := by
  unfold advance1
  rw [h]

theorem advanceN_of_nil (s : Span) (h : s.rest = []) (n : Nat) : advanceN s n = s := by
  induction n with
  | zero => rfl
  | succ n ih =>
    show advanceN (advance1 s) n = s
    rw [advance1_of_nil s h]
    exact ih

theorem advanceN_rest (s : Span) (n : Nat) : (advanceN s n).rest = s.rest.drop n := by
  induction n generalizing s with
  | zero => rfl
  | succ n ih =>
    show (advanceN (advance1 s) n).rest = s.rest.drop (n + 1)
    rw [ih, advance1_rest]
    cases s.rest <;> simp

theorem advanceN_add (s : Span) (m n : Nat) :
    advanceN s (m + n) = advanceN (advanceN s m) n := by
  induction m generalizing s with
  | zero =>
    rw [Nat.zero_add]
    rfl
  | succ m ih =>
    have h1 : m + 1 + n = (m + n) + 1 := by omega
    rw [h1]
    show advanceN (advance1 s) (m + n) = advanceN (advanceN (advance1 s) m) n
    exact ih (advance1 s)

theorem advanceN_succ (s : Span) (n : Nat) : advanceN s (n + 1) = advance1 (advanceN s n) := by
  rw [advanceN_add s n 1]
  rfl

theorem utf8Len_cons (c : Char) (l : Str) : utf8Len (c :: l) = c.utf8Size + utf8Len l := by
  simp [utf8Len]

theorem advance1_offset (s : Span) (c : Char) (cs : Str) (h : s.rest = c :: cs) :
    (advance1 s).offset = s.offset + c.utf8Size := by
  unfold advance1
  rw [h]
  by_cases hc : c = '\n' <;> simp [hc]

theorem advanceN_offset (s : Span) (n : Nat) :
    (advanceN s n).offset = s.offset + utf8Len (s.rest.take n) := by
  induction n generalizing s with
  | zero => simp [advanceN, utf8Len]
  | succ n ih =>
    cases hr : s.rest with
    | nil =>
      rw [advanceN_of_nil s hr]
      simp [hr, utf8Len]
    | cons c cs =>
      show (advanceN (advance1 s) n).offset = _
      rw [ih, advance1_offset s c cs hr, advance1_rest, hr]
      simp only [List.tail_cons, List.take_succ_cons, utf8Len_cons]
      omega

theorem advance1_line (s : Span) (c : Char) (cs : Str) (h : s.rest = c :: cs) :
    (advance1 s).line = s.line + (if c = '\n' then 1 else 0) := by
  unfold advance1
  rw [h]
  by_cases hc : c = '\n' <;> simp [hc]

theorem advanceN_line (s : Span) (n : Nat) :
    (advanceN s n).line = s.line + (s.rest.take n).count '\n' := by
  induction n generalizing s with
  | zero => simp [advanceN]
  | succ n ih =>
    cases hr : s.rest with
    | nil =>
      rw [advanceN_of_nil s hr]
      simp [hr]
    | cons c cs =>
      show (advanceN (advance1 s) n).line = _
      rw [ih, advance1_line s c cs hr, advance1_rest, hr]
      simp only [List.tail_cons, List.take_succ_cons, List.count_cons]
      by_cases hc : c = '\n'
      · simp [hc]
        omega
      · simp [hc]

theorem advance1_col_nl (s : Span) (cs : Str) (h : s.rest = '\n' :: cs) :
    (advance1 s).col = 1 := by
  unfold advance1
  rw [h]
  simp

theorem advanceN_col_after_nl (s : Span) (l cs : Str) (h : s.rest = l ++ '\n' :: cs) :
    (advanceN s (l.length + 1)).col = 1 := by
  rw [advanceN_succ]
  apply advance1_col_nl _ cs
  rw [advanceN_rest, h]
  exact List.drop_left l ('\n' :: cs)

theorem advanceN_rest_length (s : Span) (n : Nat) :
    (advanceN s n).rest.length = s.rest.length - n := by
  rw [advanceN_rest]
  exact List.length_drop n s.rest

theorem span_ne_of_rest_lt {a b : Span} (h : a.rest.length < b.rest.length) : a ≠ b := by
  intro he
  rw [he] at h
  omega

/-! ## List helper lemmas -/

theorem takeWhile_all (p : Char → Bool) (l : Str) (hl : ∀ c ∈ l, p c = true) :
    l.takeWhile p = l := by
  induction l with
  | nil => rfl
  | cons c cs ih =>
    simp [List.takeWhile_cons, hl c (by simp), ih (fun x hx => hl x (by simp [hx]))]

theorem takeWhile_append_stop (p : Char → Bool) (l : Str) (x : Char) (r : Str)
    (hl : ∀ c ∈ l, p c = true) (hx : p x = false) :
    (l ++ x :: r).takeWhile p = l := by
  induction l with
  | nil => simp [List.takeWhile_cons, hx]
  | cons c cs ih =>
    simp [List.takeWhile_cons, hl c (by simp), ih (fun y hy => hl y (by simp [hy]))]

/-- No line-terminator characters in a string (the shape of user names and
password fields inside a single record). -/
abbrev Clean (l : Str) : Prop := ∀ c ∈ l, c ≠ '\n' ∧ c ≠ '\r'

/-- What may legally follow a password field: end of input, an `'\n'`
separator, or a `"\r\n"` line ending. -/
def Boundary (r : Str) : Prop :=
  r = [] ∨ (∃ t, r = '\n' :: t) ∨ (∃ t, r = '\r' :: '\n' :: t)

theorem Clean.sublist {l m : Str} (h : Clean m) (hs : l.Sublist m) : Clean l :=
  fun c hc => h c (hs.mem hc)

theorem prefix_append_boundary (t : Str) (ht : Clean t) (f r : Str) (hr : Boundary r) :
    t.isPrefixOf (f ++ r) = t.isPrefixOf f := by
  induction t generalizing f with
  | nil => simp [List.isPrefixOf]
  | cons c ts ih =>
    cases f with
    | nil =>
      have hc := ht c (by simp)
      rcases hr with h0 | ⟨t1, h1⟩ | ⟨t2, h2⟩
      · simp [h0, List.isPrefixOf]
      · simp [h1, List.isPrefixOf, hc.1]
      · simp [h2, List.isPrefixOf, hc.2]
    | cons d fs =>
      show (c == d && ts.isPrefixOf (fs ++ r)) = (c == d && ts.isPrefixOf fs)
      rw [ih (fun x hx => ht x (by simp [hx])) fs]

/-! ## Behaviour of the leaf parsers -/

theorem tagP_ok (t : Str) (s : Span) (h : t.isPrefixOf s.rest = true) :
    tagP t s = .ok (advanceN s t.length) t := by
  simp [tagP, h]

theorem tagP_err (t : Str) (s : Span) (h : t.isPrefixOf s.rest = false) :
    tagP t s = .error s none := by
  simp [tagP, h]

theorem notLineEnding_ok (s : Span) (f r : Str) (hs : s.rest = f ++ r)
    (hf : Clean f) (hr : Boundary r) :
    notLineEnding s = .ok (advanceN s f.length) f := by
  have hcf : ∀ c ∈ f, (!(isLineEnd c)) = true := fun c hc => by
    simp [isLineEnd, (hf c hc).1, (hf c hc).2]
  have htw : s.rest.takeWhile (fun c => !(isLineEnd c)) = f := by
    rw [hs]
    rcases hr with h0 | ⟨t1, h1⟩ | ⟨t2, h2⟩
    · rw [h0, List.append_nil]
      exact takeWhile_all _ f hcf
    · rw [h1]
      exact takeWhile_append_stop _ f '\n' t1 hcf (by simp [isLineEnd])
    · rw [h2]
      exact takeWhile_append_stop _ f '\r' ('\n' :: t2) hcf (by simp [isLineEnd])
  have hdrop : s.rest.drop f.length = r := by
    rw [hs]
    exact List.drop_left f r
  rcases hr with h0 | ⟨t1, h1⟩ | ⟨t2, h2⟩
  · simp [notLineEnding, htw, hdrop, h0]
  · simp [notLineEnding, htw, hdrop, h1]
  · simp [notLineEnding, htw, hdrop, h2]

theorem not_record_ending_ok (s : Span) (f r : Str) (hs : s.rest = f ++ r)
    (hf : Clean f) (hr : Boundary r) (hne : f ≠ []) :
    not_record_ending s = .ok (advanceN s f.length) f := by
  simp [not_record_ending, notLineEnding_ok s f r hs hf hr, hne]

theorem not_record_ending_empty (s : Span) (hr : Boundary s.rest) :
    not_record_ending s = .failure s (some .Unknown) := by
  have h := notLineEnding_ok s [] s.rest rfl (by intro c hc; cases hc) hr
  simp only [List.length_nil] at h
  simp [not_record_ending, h, parseErrorKindFromU32, advanceN]

theorem isNotColon_ok (s : Span) (u r : Str) (hs : s.rest = u ++ ':' :: r)
    (hu : u ≠ []) (hnc : ':' ∉ u) :
    isNotColon s = .ok (advanceN s u.length) u := by
  have hcu : ∀ c ∈ u, (!(c == ':')) = true := by
    intro c hc
    have hcne : c ≠ ':' := fun h => hnc (h ▸ hc)
    simp [hcne]
  have htw : s.rest.takeWhile (fun c => !(c == ':')) = u := by
    rw [hs]
    exact takeWhile_append_stop _ u ':' r hcu (by simp)
  simp [isNotColon, htw, hu]

theorem isNotColon_nocolon (s : Span) (hnc : ':' ∉ s.rest) (hne : s.rest ≠ []) :
    isNotColon s = .ok (advanceN s s.rest.length) s.rest := by
  have hcu : ∀ c ∈ s.rest, (!(c == ':')) = true := by
    intro c hc
    have hcne : c ≠ ':' := fun h => hnc (h ▸ hc)
    simp [hcne]
  have htw : s.rest.takeWhile (fun c => !(c == ':')) = s.rest := takeWhile_all _ _ hcu
  simp [isNotColon, htw, hne]

theorem isNotColon_colonFirst (s : Span) (r : Str) (hs : s.rest = ':' :: r) :
    isNotColon s = .error s none := by
  simp [isNotColon, hs, List.takeWhile_cons]

theorem isNotColon_nil (s : Span) (hs : s.rest = []) : isNotColon s = .error s none := by
  simp [isNotColon, hs]

/-! ## Behaviour of `user` -/

theorem user_ok (s : Span) (u r : Str) (hs : s.rest = u ++ ':' :: r)
    (hu : u ≠ []) (hnc : ':' ∉ u) :
    user s = .ok (advanceN s (u.length + 1)) u := by
  have h1 := isNotColon_ok s u r hs hu hnc
  have hrest : (advanceN s u.length).rest = ':' :: r := by
    rw [advanceN_rest, hs]
    exact List.drop_left u (':' :: r)
  have h2 : tagP [':'] (advanceN s u.length) = .ok (advanceN (advanceN s u.length) 1) [':'] :=
    tagP_ok _ _ (by rw [hrest]; simp [List.isPrefixOf])
  simp [user, return_error, pbind, pok, h1, h2, ← advanceN_add]

theorem user_fail_colonFirst (s : Span) (r : Str) (hs : s.rest = ':' :: r) :
    user s = .failure s (some .BadUsername) := by
  simp [user, return_error, pbind, isNotColon_colonFirst s r hs]

theorem user_fail_nocolon (s : Span) (hnc : ':' ∉ s.rest) :
    user s = .failure s (some .BadUsername) := by
  by_cases hne : s.rest = []
  · simp [user, return_error, pbind, isNotColon_nil s hne]
  · have h1 := isNotColon_nocolon s hnc hne
    have hrest : (advanceN s s.rest.length).rest = [] := by
      rw [advanceN_rest]
      simp
    have h2 : tagP [':'] (advanceN s s.rest.length) = .error _ none :=
      tagP_err _ _ (by rw [hrest]; simp [List.isPrefixOf])
    simp [user, return_error, pbind, h1, h2]

/-! ## Behaviour of the password-scheme parsers -/

theorem isPrefixOf_ne_nil {t f : Str} (h : t.isPrefixOf f = true) (ht : t ≠ []) : f ≠ [] := by
  intro hf
  subst hf
  cases t with
  | nil => exact ht rfl
  | cons c cs => simp [List.isPrefixOf] at h

theorem bcrypt_pw_char (s : Span) (f r : Str) (hs : s.rest = f ++ r)
    (hf : Clean f) (hr : Boundary r) :
    bcrypt_pw s =
      if "$2a$".data.isPrefixOf f || "$2y$".data.isPrefixOf f || "$2b$".data.isPrefixOf f then
        .ok (advanceN s f.length) (.Bcrypt f)
      else .error s none := by
  have ha : "$2a$".data.isPrefixOf s.rest = "$2a$".data.isPrefixOf f := by
    rw [hs]
    exact prefix_append_boundary _ (by decide) f r hr
  have hy : "$2y$".data.isPrefixOf s.rest = "$2y$".data.isPrefixOf f := by
    rw [hs]
    exact prefix_append_boundary _ (by decide) f r hr
  have hb : "$2b$".data.isPrefixOf s.rest = "$2b$".data.isPrefixOf f := by
    rw [hs]
    exact prefix_append_boundary _ (by decide) f r hr
  by_cases h2a : "$2a$".data.isPrefixOf f = true
  · have hne : f ≠ [] := isPrefixOf_ne_nil h2a (by decide)
    have hok := not_record_ending_ok s f r hs hf hr hne
    simp [bcrypt_pw, pbind, pok, peekP, altP, tagP_ok _ s (ha.trans h2a), hok, h2a]
  · have haf : "$2a$".data.isPrefixOf f = false := Bool.eq_false_iff.mpr h2a
    by_cases h2y : "$2y$".data.isPrefixOf f = true
    · have hne : f ≠ [] := isPrefixOf_ne_nil h2y (by decide)
      have hok := not_record_ending_ok s f r hs hf hr hne
      simp [bcrypt_pw, pbind, pok, peekP, altP, tagP_err _ s (ha.trans haf),
        tagP_ok _ s (hy.trans h2y), hok, haf, h2y]
    · have hyf : "$2y$".data.isPrefixOf f = false := Bool.eq_false_iff.mpr h2y
      by_cases h2b : "$2b$".data.isPrefixOf f = true
      · have hne : f ≠ [] := isPrefixOf_ne_nil h2b (by decide)
        have hok := not_record_ending_ok s f r hs hf hr hne
        simp [bcrypt_pw, pbind, pok, peekP, altP, tagP_err _ s (ha.trans haf),
          tagP_err _ s (hy.trans hyf), tagP_ok _ s (hb.trans h2b), hok,
          haf, hyf, h2b]
      · have hbf : "$2b$".data.isPrefixOf f = false := Bool.eq_false_iff.mpr h2b
        simp [bcrypt_pw, pbind, pok, peekP, altP, tagP_err _ s (ha.trans haf),
          tagP_err _ s (hy.trans hyf), tagP_err _ s (hb.trans hbf),
          haf, hyf, hbf]

theorem tagged_pw_char (s : Span) (f r t : Str) (g : Str → PasswordHash) (hs : s.rest = f ++ r)
    (hf : Clean f) (hr : Boundary r) (ht : Clean t)
    (hpre : t.isPrefixOf f = true) :
    pbind (tagP t) (fun _ => pbind not_record_ending (fun pw => pok (g pw))) s =
      if (f.drop t.length).isEmpty then .failure (advanceN s t.length) (some .Unknown)
      else .ok (advanceN s f.length) (g (f.drop t.length)) := by
  have hlen : t.length ≤ f.length := (List.isPrefixOf_iff_prefix.mp hpre).length_le
  have htag : tagP t s = .ok (advanceN s t.length) t :=
    tagP_ok _ _ (by rw [hs, prefix_append_boundary t ht f r hr]; exact hpre)
  have hrest : (advanceN s t.length).rest = f.drop t.length ++ r := by
    rw [advanceN_rest, hs]
    exact List.drop_append_of_le_length hlen
  have hfdrop : Clean (f.drop t.length) := hf.sublist (List.drop_sublist _ _)
  by_cases hempty : (f.drop t.length).isEmpty = true
  · have hbnd : Boundary (advanceN s t.length).rest := by
      rw [hrest, List.isEmpty_iff.mp hempty, List.nil_append]
      exact hr
    have := not_record_ending_empty (advanceN s t.length) hbnd
    simp [pbind, pok, htag, this, hempty]
  · have hne : f.drop t.length ≠ [] := by
      simpa [List.isEmpty_iff] using hempty
    have hok := not_record_ending_ok (advanceN s t.length) (f.drop t.length) r hrest hfdrop hr hne
    have hdl : (f.drop t.length).length = f.length - t.length := List.length_drop _ _
    have hadd : advanceN (advanceN s t.length) (f.length - t.length) = advanceN s f.length := by
      rw [← advanceN_add]
      congr 1
      omega
    rw [hdl, hadd] at hok
    simp [pbind, pok, htag, hok, hempty]

theorem crypt_pw_char (s : Span) (f r : Str) (hs : s.rest = f ++ r)
    (hf : Clean f) (hr : Boundary r) :
    crypt_pw s =
      if f.isEmpty then .failure s (some .Unknown)
      else .ok (advanceN s f.length) (.Crypt f) := by
  by_cases hempty : f.isEmpty = true
  · have hfe : f = [] := List.isEmpty_iff.mp hempty
    subst hfe
    have hbnd : Boundary s.rest := by rw [hs]; simpa using hr
    simp [crypt_pw, pbind, pok, not_record_ending_empty s hbnd, hempty]
  · have hne : f ≠ [] := by simpa [List.isEmpty_iff] using hempty
    simp [crypt_pw, pbind, pok, not_record_ending_ok s f r hs hf hr hne, hempty]

theorem tagged_pw_err (s : Span) (f r t : Str) (g : Str → PasswordHash) (hs : s.rest = f ++ r)
    (hr : Boundary r) (ht : Clean t) (hpre : t.isPrefixOf f = false) :
    pbind (tagP t) (fun _ => pbind not_record_ending (fun pw => pok (g pw))) s =
      .error s none := by
  have htag : tagP t s = .error s none :=
    tagP_err _ _ (by rw [hs, prefix_append_boundary t ht f r hr]; exact hpre)
  simp [pbind, htag]

/-- Full characterization of the `password` parser on a field followed by a
record boundary: it implements exactly the spec's priority classification,
except that a matched scheme whose extracted value is empty aborts with
`BadPassword` (positioned at the start of the field). -/
theorem password_char (s : Span) (f r : Str) (hs : s.rest = f ++ r)
    (hf : Clean f) (hr : Boundary r) :
    password s = (match specClassify f with
      | some ph => .ok (advanceN s f.length) ph
      | none => .failure s (some .BadPassword)) := by
  have hb := bcrypt_pw_char s f r hs hf hr
  by_cases hbc : ("$2a$".data.isPrefixOf f || "$2y$".data.isPrefixOf f
      || "$2b$".data.isPrefixOf f) = true
  · rw [if_pos hbc] at hb
    simp [password, return_error, altP, hb, specClassify, hbc]
  · have hbf := Bool.eq_false_iff.mpr hbc
    rw [if_neg hbc] at hb
    by_cases hsha : "{SHA}".data.isPrefixOf f = true
    · have hsh := tagged_pw_char s f r "{SHA}".data PasswordHash.SHA1 hs hf hr (by decide) hsha
      have h5 : ("{SHA}".data).length = 5 := rfl
      rw [h5] at hsh
      by_cases hemp : (f.drop 5).isEmpty = true
      · rw [if_pos hemp] at hsh
        simp [password, return_error, altP, hb, sha1_pw, hsh, specClassify, hbf, hsha, hemp]
      · have hempf := Bool.eq_false_iff.mpr hemp
        rw [if_neg hemp] at hsh
        simp [password, return_error, altP, hb, sha1_pw, hsh, specClassify, hbf, hsha, hempf]
    · have hshaf := Bool.eq_false_iff.mpr hsha
      have hsh := tagged_pw_err s f r "{SHA}".data PasswordHash.SHA1 hs hr (by decide) hshaf
      by_cases hapr : "$apr1$".data.isPrefixOf f = true
      · have hmd := tagged_pw_char s f r "$apr1$".data PasswordHash.MD5 hs hf hr (by decide) hapr
        have h6 : ("$apr1$".data).length = 6 := rfl
        rw [h6] at hmd
        by_cases hemp : (f.drop 6).isEmpty = true
        · rw [if_pos hemp] at hmd
          simp [password, return_error, altP, hb, sha1_pw, hsh, md5_pw, hmd, specClassify,
            hbf, hshaf, hapr, hemp]
        · have hempf := Bool.eq_false_iff.mpr hemp
          rw [if_neg hemp] at hmd
          simp [password, return_error, altP, hb, sha1_pw, hsh, md5_pw, hmd, specClassify,
            hbf, hshaf, hapr, hempf]
      · have haprf := Bool.eq_false_iff.mpr hapr
        have hmd := tagged_pw_err s f r "$apr1$".data PasswordHash.MD5 hs hr (by decide) haprf
        have hcr := crypt_pw_char s f r hs hf hr
        by_cases hemp : f.isEmpty = true
        · rw [if_pos hemp] at hcr
          simp [password, return_error, altP, hb, sha1_pw, hsh, md5_pw, hmd, hcr, specClassify,
            hbf, hshaf, haprf, hemp]
        · have hempf := Bool.eq_false_iff.mpr hemp
          rw [if_neg hemp] at hcr
          simp [password, return_error, altP, hb, sha1_pw, hsh, md5_pw, hmd, hcr, specClassify,
            hbf, hshaf, haprf, hempf]

/-! ## Behaviour of `entry` -/

theorem entry_ok (s : Span) (u f r : Str) (ph : PasswordHash)
    (hs : s.rest = u ++ ':' :: (f ++ r))
    (hu : u ≠ []) (hnc : ':' ∉ u) (hf : Clean f) (hr : Boundary r)
    (hcl : specClassify f = some ph) :
    entry s = .ok (advanceN s (u.length + 1 + f.length)) (u, ph) := by
  have h1 := user_ok s u (f ++ r) hs hu hnc
  have hrest : (advanceN s (u.length + 1)).rest = f ++ r := by
    rw [advanceN_rest, hs]
    have hsplit : u ++ ':' :: (f ++ r) = (u ++ [':']) ++ (f ++ r) := by simp
    have hlen : u.length + 1 = (u ++ [':']).length := by simp
    rw [hsplit, hlen]
    exact List.drop_left _ _
  have h2 := password_char (advanceN s (u.length + 1)) f r hrest hf hr
  rw [hcl] at h2
  simp [entry, pbind, pok, h1, h2, ← advanceN_add]

/-- A record whose text starts with `':'` (empty user name), or after which
no `':'` occurs anywhere in the remaining input, makes `entry` abort with
`BadUsername` at the start of the record. -/
theorem entry_fail_bad (s : Span) (hbad : (∃ t, s.rest = ':' :: t) ∨ ':' ∉ s.rest) :
    entry s = .failure s (some .BadUsername) := by
  rcases hbad with ⟨t, ht⟩ | hnc
  · simp [entry, pbind, user_fail_colonFirst s t ht]
  · simp [entry, pbind, user_fail_nocolon s hnc]

/-! ## Inputs made of records -/

/-- A record description: user name, password field, classified hash. -/
abbrev RecT := Str × Str × PasswordHash

/-- The record's text: `user ++ ":" ++ field`. -/
def recOf (t : RecT) : Str := t.1 ++ ':' :: t.2.1

/-- The table entry a record produces. -/
def pairOf (t : RecT) : Str × PasswordHash := (t.1, t.2.2)

/-- A well-formed record: nonempty user name containing neither `':'` nor
line terminators, and a clean password field that classifies to the stated
hash. -/
abbrev GoodRec (t : RecT) : Prop :=
  t.1 ≠ [] ∧ ':' ∉ t.1 ∧ Clean t.1 ∧ Clean t.2.1 ∧ specClassify t.2.1 = some t.2.2

/-- Records each preceded by an `'\n'` separator, then a tail. -/
def joinSep : List RecT → Str → Str
  | [], tail => tail
  | t :: ts, tail => '\n' :: (recOf t ++ joinSep ts tail)

/-- A whole input: a list of `'\n'`-separated records followed by a tail. -/
def listInputT : List RecT → Str → Str
  | [], tail => tail
  | t :: ts, tail => recOf t ++ joinSep ts tail

/-- The text consumed before a failing record: the well-formed records, each
terminated by its `'\n'` separator. -/
def leadIn : List RecT → Str
  | [] => []
  | t :: ts => recOf t ++ joinSep ts ['\n']

/-- Tails at which the record list stops cleanly: end of input or a `"\r\n"`
line ending (which is not the `"\n"` separator). -/
def TailStop (tail : Str) : Prop := tail = [] ∨ ∃ g, tail = '\r' :: '\n' :: g

/-- A remainder on which the next record aborts with `BadUsername`: it starts
with `':'` (empty user name) or contains no `':'` at all. -/
def BadStart (bad : Str) : Prop := (∃ t, bad = ':' :: t) ∨ ':' ∉ bad

theorem joinSep_eq (ts : List RecT) (tail : Str) :
    joinSep ts tail = joinSep ts [] ++ tail := by
  induction ts with
  | nil => simp [joinSep]
  | cons t ts ih => simp [joinSep, ih]

theorem boundary_of_tailStop {tail : Str} (h : TailStop tail) : Boundary tail := by
  rcases h with h0 | ⟨g, hg⟩
  · exact Or.inl h0
  · exact Or.inr (Or.inr ⟨g, hg⟩)

theorem boundary_joinSep (ts : List RecT) {tail : Str} (h : TailStop tail) :
    Boundary (joinSep ts tail) := by
  cases ts with
  | nil => exact boundary_of_tailStop h
  | cons t ts => exact Or.inr (Or.inl ⟨_, rfl⟩)

theorem sepTag_stop (i : Span) {tail : Str} (h : TailStop tail) (hrest : i.rest = tail) :
    sepTag i = .error i none := by
  rcases h with h0 | ⟨g, hg⟩
  · exact tagP_err _ _ (by rw [hrest, h0]; simp [List.isPrefixOf])
  · exact tagP_err _ _ (by rw [hrest, hg]; simp [List.isPrefixOf])

theorem recOf_length (t : RecT) : (recOf t).length = t.1.length + 1 + t.2.1.length := by
  simp [recOf]
  omega

/-- One successful record step of the separated-list loop, shared by the
success and failure variants: from `i` with `i.rest = '\n' :: recOf t ++ J`,
the separator and the record are consumed. -/
theorem entry_after_sep (i : Span) (t : RecT) (J : Str) (hg : GoodRec t)
    (hb : Boundary J) (hrest : i.rest = '\n' :: (recOf t ++ J)) :
    entry (advanceN i 1) =
      .ok (advanceN i (1 + (recOf t).length)) (pairOf t) := by
  obtain ⟨hu, hnc, _, hcf, hcl⟩ := hg
  have hrest1 : (advanceN i 1).rest = recOf t ++ J := by
    rw [advanceN_rest, hrest]
    rfl
  have hshape : (advanceN i 1).rest = t.1 ++ ':' :: (t.2.1 ++ J) := by
    rw [hrest1]
    simp [recOf]
  have he := entry_ok (advanceN i 1) t.1 t.2.1 J t.2.2 hshape hu hnc hcf hb hcl
  rw [← advanceN_add, ← recOf_length] at he
  exact he

theorem sepEntriesLoop_ok (rs : List RecT) (tail : Str) :
    ∀ (fuel : Nat) (i : Span) (acc : List (Str × PasswordHash)),
    (∀ t ∈ rs, GoodRec t) → TailStop tail → i.rest = joinSep rs tail →
    i.rest.length < fuel →
    sepEntriesLoop fuel i acc =
      .ok (advanceN i (i.rest.length - tail.length)) (acc ++ rs.map pairOf) := by
  induction rs with
  | nil =>
    intro fuel i acc _ htail hrest hfuel
    cases fuel with
    | zero => omega
    | succ fuel =>
      have hsep := sepTag_stop i htail (by rw [hrest]; rfl)
      have hlen : i.rest.length = tail.length := by rw [hrest]; rfl
      simp [sepEntriesLoop, hsep, hlen, advanceN]
  | cons t ts ih =>
    intro fuel i acc hg htail hrest hfuel
    cases fuel with
    | zero => omega
    | succ fuel =>
      have hrestlen : i.rest.length = 1 + (recOf t).length + (joinSep ts []).length + tail.length := by
        rw [hrest]
        simp [joinSep, joinSep_eq ts tail]
        omega
      have hsep : sepTag i = .ok (advanceN i 1) ['\n'] := by
        have := tagP_ok ['\n'] i (by rw [hrest]; simp [List.isPrefixOf])
        simpa using this
      have hne1 : ¬ (advanceN i 1 = i) := by
        apply span_ne_of_rest_lt
        rw [advanceN_rest_length]
        omega
      have hent := entry_after_sep i t (joinSep ts tail) (hg t (by simp))
        (boundary_joinSep ts htail) (by rw [hrest]; simp only [joinSep])
      have hne2 : ¬ (advanceN i (1 + (recOf t).length) = i) := by
        apply span_ne_of_rest_lt
        rw [advanceN_rest_length]
        omega
      have hrest2 : (advanceN i (1 + (recOf t).length)).rest = joinSep ts tail := by
        rw [advanceN_rest, hrest]
        simp only [joinSep]
        have hsh : '\n' :: (recOf t ++ joinSep ts tail) = ('\n' :: recOf t) ++ joinSep ts tail := by
          simp
        rw [hsh]
        have hlen : 1 + (recOf t).length = ('\n' :: recOf t).length := by simp; omega
        rw [hlen]
        exact List.drop_left _ _
      have hrest2len : (advanceN i (1 + (recOf t).length)).rest.length =
          (joinSep ts []).length + tail.length := by
        rw [hrest2, joinSep_eq]
        simp
      have hrec := ih fuel (advanceN i (1 + (recOf t).length)) (acc ++ [pairOf t])
        (fun x hx => hg x (by simp [hx])) htail hrest2 (by omega)
      rw [hrest2len] at hrec
      have hspan : advanceN i (i.rest.length - tail.length) =
          advanceN (advanceN i (1 + (recOf t).length))
            ((joinSep ts []).length + tail.length - tail.length) := by
        rw [← advanceN_add]
        congr 1
        omega
      simp [sepEntriesLoop, hsep, hne1, hent, hne2, hrec, hspan]

theorem sepEntriesLoop_bad (rs : List RecT) (bad : Str) :
    ∀ (fuel : Nat) (i : Span) (acc : List (Str × PasswordHash)),
    (∀ t ∈ rs, GoodRec t) → BadStart bad →
    i.rest = joinSep rs ('\n' :: bad) → i.rest.length < fuel →
    sepEntriesLoop fuel i acc =
      .failure (advanceN i (i.rest.length - bad.length)) (some .BadUsername) := by
  induction rs with
  | nil =>
    intro fuel i acc _ hbad hrest hfuel
    cases fuel with
    | zero => omega
    | succ fuel =>
      have hsep : sepTag i = .ok (advanceN i 1) ['\n'] := by
        have := tagP_ok ['\n'] i (by rw [hrest]; simp [joinSep, List.isPrefixOf])
        simpa using this
      have hrest1 : (advanceN i 1).rest = bad := by
        rw [advanceN_rest, hrest]
        rfl
      have hne1 : ¬ (advanceN i 1 = i) := by
        apply span_ne_of_rest_lt
        rw [advanceN_rest_length]
        have : i.rest.length = bad.length + 1 := by rw [hrest]; simp [joinSep]
        omega
      have hent : entry (advanceN i 1) = .failure (advanceN i 1) (some .BadUsername) := by
        apply entry_fail_bad
        rw [hrest1]
        exact hbad
      have hlen : i.rest.length - bad.length = 1 := by
        rw [hrest]
        simp [joinSep]
      simp [sepEntriesLoop, hsep, hne1, hent, hlen]
  | cons t ts ih =>
    intro fuel i acc hg hbad hrest hfuel
    cases fuel with
    | zero => omega
    | succ fuel =>
      have hrestlen : i.rest.length =
          1 + (recOf t).length + (joinSep ts []).length + (1 + bad.length) := by
        rw [hrest]
        simp [joinSep, joinSep_eq ts ('\n' :: bad)]
        omega
      have hsep : sepTag i = .ok (advanceN i 1) ['\n'] := by
        have := tagP_ok ['\n'] i (by rw [hrest]; simp [joinSep, List.isPrefixOf])
        simpa using this
      have hne1 : ¬ (advanceN i 1 = i) := by
        apply span_ne_of_rest_lt
        rw [advanceN_rest_length]
        omega
      have hbnd : Boundary (joinSep ts ('\n' :: bad)) := by
        cases ts with
        | nil => exact Or.inr (Or.inl ⟨bad, rfl⟩)
        | cons x xs => exact Or.inr (Or.inl ⟨_, rfl⟩)
      have hent := entry_after_sep i t (joinSep ts ('\n' :: bad)) (hg t (by simp))
        hbnd (by rw [hrest]; simp only [joinSep])
      have hne2 : ¬ (advanceN i (1 + (recOf t).length) = i) := by
        apply span_ne_of_rest_lt
        rw [advanceN_rest_length]
        omega
      have hrest2 : (advanceN i (1 + (recOf t).length)).rest = joinSep ts ('\n' :: bad) := by
        rw [advanceN_rest, hrest]
        simp only [joinSep]
        have hsh : '\n' :: (recOf t ++ joinSep ts ('\n' :: bad)) =
            ('\n' :: recOf t) ++ joinSep ts ('\n' :: bad) := by
          simp
        rw [hsh]
        have hlen : 1 + (recOf t).length = ('\n' :: recOf t).length := by simp; omega
        rw [hlen]
        exact List.drop_left _ _
      have hrest2len : (advanceN i (1 + (recOf t).length)).rest.length =
          (joinSep ts []).length + (1 + bad.length) := by
        rw [hrest2, joinSep_eq]
        simp
        omega
      have hrec := ih fuel (advanceN i (1 + (recOf t).length)) (acc ++ [pairOf t])
        (fun x hx => hg x (by simp [hx])) hbad hrest2 (by omega)
      rw [hrest2len] at hrec
      have hspan : advanceN i (i.rest.length - bad.length) =
          advanceN (advanceN i (1 + (recOf t).length))
            ((joinSep ts []).length + (1 + bad.length) - bad.length) := by
        rw [← advanceN_add]
        congr 1
        omega
      simp [sepEntriesLoop, hsep, hne1, hent, hne2, hrec, hspan]

/-! ## Top-level behaviour of `entries` and `parse_entries` -/

theorem listInputT_eq (t : RecT) (ts : List RecT) (tail : Str) :
    listInputT (t :: ts) tail = listInputT (t :: ts) [] ++ tail := by
  simp [listInputT, joinSep_eq ts tail]

theorem separated_entries_ok (t : RecT) (ts : List RecT) (tail : Str) (s : Span)
    (hg : ∀ x ∈ t :: ts, GoodRec x) (htail : TailStop tail)
    (hrest : s.rest = listInputT (t :: ts) tail) :
    separated_entries s =
      .ok (advanceN s (s.rest.length - tail.length)) ((t :: ts).map pairOf) := by
  obtain ⟨hu, hnc, hcu, hcf, hcl⟩ := hg t (by simp)
  have hb : Boundary (joinSep ts tail) := boundary_joinSep ts htail
  have hshape : s.rest = t.1 ++ ':' :: (t.2.1 ++ joinSep ts tail) := by
    rw [hrest]
    simp [listInputT, recOf]
  have hent := entry_ok s t.1 t.2.1 (joinSep ts tail) t.2.2 hshape hu hnc hcf hb hcl
  rw [← recOf_length] at hent
  have hulen : 1 ≤ t.1.length := List.length_pos.mpr hu
  have hklen : (recOf t).length = t.1.length + 1 + t.2.1.length := recOf_length t
  have hlen : s.rest.length = (recOf t).length + ((joinSep ts []).length + tail.length) := by
    rw [hrest]
    simp [listInputT, joinSep_eq ts tail]
  have hne1 : ¬ (advanceN s (recOf t).length = s) := by
    apply span_ne_of_rest_lt
    rw [advanceN_rest_length]
    omega
  have hrest1 : (advanceN s (recOf t).length).rest = joinSep ts tail := by
    rw [advanceN_rest, hrest]
    simp only [listInputT]
    exact List.drop_left _ _
  have hrest1len : (advanceN s (recOf t).length).rest.length =
      (joinSep ts []).length + tail.length := by
    rw [hrest1, joinSep_eq]
    simp
  have hloop := sepEntriesLoop_ok ts tail (s.rest.length + 1) (advanceN s (recOf t).length)
    [pairOf t] (fun x hx => hg x (by simp [hx])) htail hrest1 (by omega)
  rw [hrest1len] at hloop
  have hspan : advanceN s (s.rest.length - tail.length) =
      advanceN (advanceN s (recOf t).length)
        ((joinSep ts []).length + tail.length - tail.length) := by
    rw [← advanceN_add]
    congr 1
    omega
  simp only [pairOf, Nat.add_sub_cancel] at hloop hspan
  simp [separated_entries, hent, hne1, hloop, hspan, pairOf]

theorem entries_ok (t : RecT) (ts : List RecT) (s : Span)
    (hg : ∀ x ∈ t :: ts, GoodRec x)
    (hrest : s.rest = listInputT (t :: ts) []) :
    entries s = .ok (advanceN s s.rest.length) ((t :: ts).map pairOf) := by
  have hsep := separated_entries_ok t ts [] s hg (Or.inl rfl) hrest
  simp only [List.length_nil, Nat.sub_zero] at hsep
  have hrest1 : (advanceN s s.rest.length).rest = [] := by
    rw [advanceN_rest]
    simp
  have hle : lineEnding (advanceN s s.rest.length) = .error (advanceN s s.rest.length) none := by
    simp [lineEnding, hrest1]
  have heof : eofP (advanceN s s.rest.length) = .ok (advanceN s s.rest.length) () := by
    simp [eofP, hrest1]
  simp [entries, pbind, pok, hsep, optLineEnding, hle, return_error, heof]

theorem entries_garbage (t : RecT) (ts : List RecT) (g : Str) (s : Span)
    (hg : ∀ x ∈ t :: ts, GoodRec x) (hgne : g ≠ [])
    (hrest : s.rest = listInputT (t :: ts) ('\r' :: '\n' :: g)) :
    entries s = .failure (advanceN s (s.rest.length - g.length)) (some .GarbageAtEnd) := by
  have htail : TailStop ('\r' :: '\n' :: g) := Or.inr ⟨g, rfl⟩
  have hsep := separated_entries_ok t ts _ s hg htail hrest
  have hlen : s.rest.length = (listInputT (t :: ts) []).length + (2 + g.length) := by
    rw [hrest, listInputT_eq]
    simp
    omega
  have hrest1 : (advanceN s (s.rest.length - ('\r' :: '\n' :: g).length)).rest =
      '\r' :: '\n' :: g := by
    have hd : s.rest.length - ('\r' :: '\n' :: g).length = (listInputT (t :: ts) []).length := by
      simp only [List.length_cons] at hlen ⊢
      omega
    rw [hd, advanceN_rest, hrest, listInputT_eq t ts ('\r' :: '\n' :: g)]
    exact List.drop_left _ _
  set s1 := advanceN s (s.rest.length - ('\r' :: '\n' :: g).length) with hs1
  have hline : lineEnding s1 = .ok (advanceN s1 2) ['\r', '\n'] := by
    simp [lineEnding, hrest1]
  have hrest2 : (advanceN s1 2).rest = g := by
    rw [advanceN_rest, hrest1]
    rfl
  have heof : eofP (advanceN s1 2) = .error (advanceN s1 2) none := by
    simp [eofP, hrest2, hgne]
  have hspan : advanceN s1 2 = advanceN s (s.rest.length - g.length) := by
    rw [hs1, ← advanceN_add]
    congr 1
    simp only [List.length_cons] at hlen ⊢
    omega
  rw [hspan] at heof
  simp [entries, pbind, pok, hsep, optLineEnding, hline, return_error, heof, hspan, pairOf]

theorem entries_bad (rs : List RecT) (bad : Str) (s : Span)
    (hg : ∀ x ∈ rs, GoodRec x) (hbad : BadStart bad)
    (hrest : s.rest = leadIn rs ++ bad) :
    entries s = .failure (advanceN s (leadIn rs).length) (some .BadUsername) := by
  cases rs with
  | nil =>
    have hent : entry s = .failure s (some .BadUsername) := by
      apply entry_fail_bad
      rw [hrest]
      simpa [leadIn] using hbad
    simp [entries, pbind, separated_entries, hent, leadIn, advanceN]
  | cons t ts =>
    obtain ⟨hu, hnc, hcu, hcf, hcl⟩ := hg t (by simp)
    have hshape0 : s.rest = recOf t ++ joinSep ts ('\n' :: bad) := by
      rw [hrest]
      simp [leadIn, joinSep_eq ts ['\n'], joinSep_eq ts ('\n' :: bad)]
    have hbnd : Boundary (joinSep ts ('\n' :: bad)) := by
      cases ts with
      | nil => exact Or.inr (Or.inl ⟨bad, rfl⟩)
      | cons x xs => exact Or.inr (Or.inl ⟨_, rfl⟩)
    have hshape : s.rest = t.1 ++ ':' :: (t.2.1 ++ joinSep ts ('\n' :: bad)) := by
      rw [hshape0]
      simp [recOf]
    have hent := entry_ok s t.1 t.2.1 (joinSep ts ('\n' :: bad)) t.2.2 hshape hu hnc hcf hbnd hcl
    rw [← recOf_length] at hent
    have hulen : 1 ≤ t.1.length := List.length_pos.mpr hu
    have hklen : (recOf t).length = t.1.length + 1 + t.2.1.length := recOf_length t
    have hlen : s.rest.length =
        (recOf t).length + ((joinSep ts []).length + (1 + bad.length)) := by
      rw [hshape0, joinSep_eq ts ('\n' :: bad)]
      simp
      omega
    have hne1 : ¬ (advanceN s (recOf t).length = s) := by
      apply span_ne_of_rest_lt
      rw [advanceN_rest_length]
      omega
    have hrest1 : (advanceN s (recOf t).length).rest = joinSep ts ('\n' :: bad) := by
      rw [advanceN_rest, hshape0]
      exact List.drop_left _ _
    have hrest1len : (advanceN s (recOf t).length).rest.length =
        (joinSep ts []).length + (1 + bad.length) := by
      rw [hrest1, joinSep_eq]
      simp
      omega
    have hloop := sepEntriesLoop_bad ts bad (s.rest.length + 1) (advanceN s (recOf t).length)
      [pairOf t] (fun x hx => hg x (by simp [hx])) hbad hrest1 (by omega)
    rw [hrest1len] at hloop
    have hleadlen : (leadIn (t :: ts)).length =
        (recOf t).length + ((joinSep ts []).length + 1) := by
      simp [leadIn, joinSep_eq ts ['\n']]
    have harith : (joinSep ts []).length + (1 + bad.length) - bad.length =
        (joinSep ts []).length + 1 := by
      omega
    rw [harith] at hloop
    simp only [pairOf] at hloop
    have hspan : advanceN s (leadIn (t :: ts)).length =
        advanceN (advanceN s (recOf t).length) ((joinSep ts []).length + 1) := by
      rw [← advanceN_add, hleadlen]
    simp [entries, pbind, pok, separated_entries, hent, hne1, hloop, hspan]

/-! ## Counting newlines and bytes in record lists -/

theorem utf8Len_append (l m : Str) : utf8Len (l ++ m) = utf8Len l + utf8Len m := by
  simp [utf8Len]

theorem count_nl_recOf (t : RecT) (h : GoodRec t) : (recOf t).count '\n' = 0 := by
  obtain ⟨_, _, hcu, hcf, _⟩ := h
  have h1 : '\n' ∉ t.1 := fun hm => (hcu _ hm).1 rfl
  have h2 : '\n' ∉ t.2.1 := fun hm => (hcf _ hm).1 rfl
  simp [recOf, List.count_append, List.count_cons,
    List.count_eq_zero.mpr h1, List.count_eq_zero.mpr h2]

theorem count_nl_joinSep (ts : List RecT) (hg : ∀ x ∈ ts, GoodRec x) :
    (joinSep ts []).count '\n' = ts.length := by
  induction ts with
  | nil => simp [joinSep]
  | cons t ts ih =>
    simp [joinSep, List.count_append, List.count_cons, count_nl_recOf t (hg t (by simp)),
      ih (fun x hx => hg x (by simp [hx]))]

theorem count_nl_listInput (t : RecT) (ts : List RecT) (hg : ∀ x ∈ t :: ts, GoodRec x) :
    (listInputT (t :: ts) []).count '\n' = ts.length := by
  simp [listInputT, List.count_append, count_nl_recOf t (hg t (by simp)),
    count_nl_joinSep ts (fun x hx => hg x (by simp [hx]))]

theorem count_nl_leadIn (rs : List RecT) (hg : ∀ x ∈ rs, GoodRec x) :
    (leadIn rs).count '\n' = rs.length := by
  cases rs with
  | nil => simp [leadIn]
  | cons t ts =>
    simp [leadIn, joinSep_eq ts ['\n'], List.count_append, List.count_cons,
      count_nl_recOf t (hg t (by simp)),
      count_nl_joinSep ts (fun x hx => hg x (by simp [hx]))]

/-- A successful parse of a nonempty list of well-formed records builds
exactly the table of their entries, in order. -/
theorem parse_entries_records (t : RecT) (ts : List RecT)
    (hg : ∀ x ∈ t :: ts, GoodRec x) :
    parse_entries (listInputT (t :: ts) []) = .ok (collectHM ((t :: ts).map pairOf)) := by
  have h := entries_ok t ts (Span.new (listInputT (t :: ts) [])) hg rfl
  simp [parse_entries, h]

/-- After one or more well-formed records terminated by `"\r\n"`, any
nonempty leftover makes the parse fail with `GarbageAtEnd`, positioned right
after the consumed line ending. -/
theorem parse_entries_garbage (t : RecT) (ts : List RecT) (g : Str)
    (hg : ∀ x ∈ t :: ts, GoodRec x) (hgne : g ≠ []) :
    parse_entries (listInputT (t :: ts) ('\r' :: '\n' :: g)) =
      .error ⟨.GarbageAtEnd, utf8Len (listInputT (t :: ts) []) + 2, ts.length + 2, 1⟩ := by
  have h := entries_garbage t ts g (Span.new (listInputT (t :: ts) ('\r' :: '\n' :: g))) hg hgne rfl
  have hrest0 : (Span.new (listInputT (t :: ts) ('\r' :: '\n' :: g))).rest =
      listInputT (t :: ts) ('\r' :: '\n' :: g) := rfl
  have hsplit : listInputT (t :: ts) ('\r' :: '\n' :: g) =
      (listInputT (t :: ts) [] ++ ['\r', '\n']) ++ g := by
    rw [listInputT_eq]
    simp
  have hlen : (listInputT (t :: ts) ('\r' :: '\n' :: g)).length =
      (listInputT (t :: ts) []).length + 2 + g.length := by
    rw [hsplit]
    simp
    omega
  have hn : (listInputT (t :: ts) ('\r' :: '\n' :: g)).length - g.length =
      (listInputT (t :: ts) [] ++ ['\r', '\n']).length := by
    simp only [List.length_append, List.length_cons, List.length_nil] at hlen ⊢
    omega
  have htake : (listInputT (t :: ts) ('\r' :: '\n' :: g)).take
      ((listInputT (t :: ts) ('\r' :: '\n' :: g)).length - g.length) =
      listInputT (t :: ts) [] ++ ['\r', '\n'] := by
    rw [hn, hsplit]
    exact List.take_left _ _
  set s0 := Span.new (listInputT (t :: ts) ('\r' :: '\n' :: g)) with hs0
  set n := (listInputT (t :: ts) ('\r' :: '\n' :: g)).length - g.length with hndef
  have hoffset : (advanceN s0 n).offset = utf8Len (listInputT (t :: ts) []) + 2 := by
    rw [advanceN_offset]
    rw [hs0]
    simp only [Span.new]
    rw [hndef, htake, utf8Len_append]
    have h2 : utf8Len ['\r', '\n'] = 2 := by decide
    omega
  have hline : (advanceN s0 n).line = ts.length + 2 := by
    rw [advanceN_line]
    rw [hs0]
    simp only [Span.new]
    rw [hndef, htake, List.count_append, count_nl_listInput t ts hg]
    have h1 : (['\r', '\n'] : Str).count '\n' = 1 := by decide
    omega
  have hcol : (advanceN s0 n).col = 1 := by
    have hsplit2 : s0.rest = (listInputT (t :: ts) [] ++ ['\r']) ++ '\n' :: g := by
      rw [hs0]
      show listInputT (t :: ts) ('\r' :: '\n' :: g) = _
      rw [hsplit]
      simp
    have hn2 : n = (listInputT (t :: ts) [] ++ ['\r']).length + 1 := by
      rw [hndef]
      simp only [List.length_append, List.length_cons, List.length_nil] at hlen ⊢
      omega
    rw [hn2]
    exact advanceN_col_after_nl s0 _ g hsplit2
  rw [hrest0] at h
  simp [parse_entries, h, parseFailureOf, hoffset, hline, hcol]

/-- Well-formed records, each followed by its separator, then a remainder
starting with `':'` or containing no `':'` at all: the parse fails with
`BadUsername` at the start of the remainder (offset of the consumed lead-in,
one line per consumed record, column 1). -/
theorem parse_entries_bad (rs : List RecT) (bad : Str)
    (hg : ∀ x ∈ rs, GoodRec x) (hbad : BadStart bad) :
    parse_entries (leadIn rs ++ bad) =
      .error ⟨.BadUsername, utf8Len (leadIn rs), rs.length + 1, 1⟩ := by
  have h := entries_bad rs bad (Span.new (leadIn rs ++ bad)) hg hbad rfl
  set s0 := Span.new (leadIn rs ++ bad) with hs0
  have hrest0 : s0.rest = leadIn rs ++ bad := rfl
  have htake : s0.rest.take (leadIn rs).length = leadIn rs := by
    rw [hrest0]
    exact List.take_left _ _
  have hoffset : (advanceN s0 (leadIn rs).length).offset = utf8Len (leadIn rs) := by
    rw [advanceN_offset, htake]
    simp [hs0, Span.new]
  have hline : (advanceN s0 (leadIn rs).length).line = rs.length + 1 := by
    rw [advanceN_line, htake, count_nl_leadIn rs hg]
    simp [hs0, Span.new]
    omega
  have hcol : (advanceN s0 (leadIn rs).length).col = 1 := by
    cases rs with
    | nil => simp [leadIn, advanceN, hs0, Span.new]
    | cons t ts =>
      have hsplit : s0.rest = (recOf t ++ joinSep ts []) ++ '\n' :: bad := by
        rw [hrest0]
        simp [leadIn, joinSep_eq ts ['\n']]
      have hn : (leadIn (t :: ts)).length = (recOf t ++ joinSep ts []).length + 1 := by
        simp [leadIn, joinSep_eq ts ['\n']]
        omega
      rw [hn]
      exact advanceN_col_after_nl s0 _ bad hsplit
  simp [parse_entries, h, parseFailureOf, hoffset, hline, hcol]

/-! ## The hash map built by `collect` -/

theorem getHM_insert_self (m : HashMapL) (k : Str) (v : PasswordHash) :
    getHM (insertHM m k v) k = some v := by
  simp [insertHM, getHM]

theorem getHM_insert_ne (m : HashMapL) (k : Str) (v : PasswordHash) (u : Str)
    (hne : u ≠ k) : getHM (insertHM m k v) u = getHM m u := by
  show (if k = u then some v else getHM m u) = getHM m u
  rw [if_neg (Ne.symm hne)]

theorem getHM_foldl_not_mem (es : List (Str × PasswordHash)) (u : Str) :
    ∀ (m0 : HashMapL), (∀ p ∈ es, p.1 ≠ u) →
    getHM (es.foldl (fun m p => insertHM m p.1 p.2) m0) u = getHM m0 u := by
  induction es with
  | nil =>
    intro m0 _
    rfl
  | cons p es ih =>
    intro m0 hne
    rw [List.foldl_cons, ih _ (fun q hq => hne q (by simp [hq]))]
    exact getHM_insert_ne m0 p.1 p.2 u (fun h => hne p (by simp) (h ▸ rfl))

/-- In the collected table, a key maps to the value of its **last**
occurrence, provided no later entry rebinds it. -/
theorem getHM_collect_last (es1 : List (Str × PasswordHash)) (u : Str) (ph : PasswordHash)
    (es2 : List (Str × PasswordHash)) (hne : ∀ p ∈ es2, p.1 ≠ u) :
    getHM (collectHM (es1 ++ (u, ph) :: es2)) u = some ph := by
  show getHM ((es1 ++ (u, ph) :: es2).foldl (fun m p => insertHM m p.1 p.2) []) u = some ph
  rw [List.foldl_append, List.foldl_cons]
  rw [getHM_foldl_not_mem es2 u _ hne]
  exact getHM_insert_self _ u ph

/-- A successful parse of any nonempty list of well-formed records builds
exactly the table of their entries, in order. -/
theorem parse_entries_records_any (rs : List RecT) (hne : rs ≠ [])
    (hg : ∀ x ∈ rs, GoodRec x) :
    parse_entries (listInputT rs []) = .ok (collectHM (rs.map pairOf)) := by
  cases rs with
  | nil => exact absurd rfl hne
  | cons t ts => exact parse_entries_records t ts hg

/-! ## The claims -/

/-- C1: for every credential table and submitted password, if the record
stored for the looked-up user name is classified under any legacy scheme
(`SHA1`, `MD5`, `Crypt`), `validate` returns `InsecureStorage` for **every**
possible behaviour of the hash-comparison primitive — in particular also for
one that would report a match — so the primitive's result is never consulted. -/
theorem claim_validate_legacy_insecure (db : PasswordDB) (u pw : Str)
    (ph : PasswordHash) (hget : getHM db u = some ph) (hleg : ph.isLegacy = true) :
    ∀ verify : Str → Str → Except BcryptError Bool,
      validate db verify u pw = .error (.NotAuthenticated .InsecureStorage) := by
  intro verify
  cases ph with
  | Bcrypt h => simp [PasswordHash.isLegacy] at hleg
  | SHA1 h => simp [validate, hget]
  | MD5 h => simp [validate, hget]
  | Crypt h => simp [validate, hget]

/-- Witness for C1: a stored `{SHA}` record yields `InsecureStorage` even
under an oracle that always reports a successful match. -/
theorem claim_validate_legacy_insecure_witness :
    getHM [("u".data, PasswordHash.SHA1 "x".data)] "u".data
        = some (PasswordHash.SHA1 "x".data)
    ∧ (PasswordHash.SHA1 "x".data).isLegacy = true
    ∧ validate [("u".data, PasswordHash.SHA1 "x".data)]
        (fun _ _ => .ok true) "u".data "pw".data
        = .error (.NotAuthenticated .InsecureStorage) :=
  ⟨by decide, by decide,
    claim_validate_legacy_insecure [("u".data, PasswordHash.SHA1 "x".data)]
      "u".data "pw".data (PasswordHash.SHA1 "x".data) (by decide) (by decide)
      (fun _ _ => .ok true)⟩

/-- C2: any two validation-failure values — `NoSuchUser`, `InvalidPassword`,
`InsecureStorage` wrapped in `NotAuthenticated`, or `StorageError` — render
identically through `Display`, as the single generic string
`"Authentication failed."`, independent of any payload. -/
theorem claim_failures_render_identically :
    (∀ a b : AuthError, AuthError.display a = AuthError.display b)
    ∧ (∀ a : AuthError, AuthError.display a = "Authentication failed.")
    ∧ (∀ c : BadCredentials, BadCredentials.display c = "Authentication failed.") :=
  ⟨fun _ _ => rfl, fun _ => rfl, fun _ => rfl⟩

/-- C3: for a stored `Bcrypt(hash)` record, `validate` returns exactly what
the external comparison primitive reports on `(password, hash)`: success on a
clean match, `InvalidPassword` on a clean mismatch, and `StorageError e` when
the primitive itself fails with `e`. -/
theorem claim_validate_bcrypt (db : PasswordDB)
    (verify : Str → Str → Except BcryptError Bool) (u pw h : Str)
    (hget : getHM db u = some (.Bcrypt h)) :
    validate db verify u pw = (match verify pw h with
      | .ok true => .ok ()
      | .ok false => .error (.NotAuthenticated .InvalidPassword)
      | .error e => .error (.StorageError e)) := by
  simp [validate, hget]

/-- Witness for C3: a concrete bcrypt record validated under a concrete
oracle, with a matching password. -/
theorem claim_validate_bcrypt_witness :
    getHM [("u".data, PasswordHash.Bcrypt "h".data)] "u".data
        = some (PasswordHash.Bcrypt "h".data)
    ∧ validate [("u".data, PasswordHash.Bcrypt "h".data)]
        (fun p _ => .ok (decide (p = "good".data))) "u".data "good".data = .ok () :=
  ⟨by decide,
    (claim_validate_bcrypt [("u".data, PasswordHash.Bcrypt "h".data)]
      (fun p _ => .ok (decide (p = "good".data))) "u".data "good".data "h".data
      (by decide)).trans (by rfl)⟩

/-- C4 (code bug): the spec promises that a well-formed record **with** its
trailing `"\n"` terminator round-trips, but the parser accepts the record only
without the terminator; with it, `separated_list` consumes the `"\n"` as a
separator and then demands another record, so the `opt!(line_ending)`
terminator is unreachable for `"\n"` and the parse fails with `BadUsername`
at end of input. -/
theorem claim_roundtrip_record :
    parse_entries "a:$2y$x".data = .ok [("a".data, PasswordHash.Bcrypt "$2y$x".data)]
    ∧ parse_entries "a:$2y$x\n".data = .error ⟨.BadUsername, 8, 2, 1⟩ :=
  ⟨by rfl, by rfl⟩

/-- C5 counterexample: the password field `"{SHA}"` starts with the `{SHA}`
tag, so by the claim it would classify as `LegacySha1` with value `""`; the
parser instead aborts with `BadPassword` because the extracted value is
empty. -/
theorem claim_priority_counterexample :
    password (Span.new "{SHA}".data) = .failure (Span.new "{SHA}".data) (some .BadPassword) := by
  rfl

/-- C5 (amended): on any password field (followed by a record boundary),
classification follows the fixed priority order — bcrypt tags (value includes
the prefix), then `{SHA}`, then `$apr1$` (value after the tag), then the whole
line as legacy crypt — **provided** the extracted value is nonempty; a matched
scheme with an empty value (bare tag, or empty field) is a `BadPassword`
failure at the start of the field. `specClassify` spells out the spec's
priority table. -/
theorem claim_priority_classification (s : Span) (f r : Str) (hs : s.rest = f ++ r)
    (hf : Clean f) (hr : Boundary r) :
    password s = (match specClassify f with
      | some ph => .ok (advanceN s f.length) ph
      | none => .failure s (some .BadPassword)) :=
  password_char s f r hs hf hr

/-- Witness for C5: the field `"{SHA}x"` classifies as `SHA1 "x"`. -/
theorem claim_priority_classification_witness :
    (Span.new "{SHA}x".data).rest = "{SHA}x".data ++ []
    ∧ Clean "{SHA}x".data
    ∧ Boundary ([] : Str)
    ∧ password (Span.new "{SHA}x".data) = (match specClassify "{SHA}x".data with
        | some ph => .ok (advanceN (Span.new "{SHA}x".data) "{SHA}x".data.length) ph
        | none => .failure (Span.new "{SHA}x".data) (some .BadPassword)) :=
  ⟨rfl, by decide, Or.inl rfl,
    claim_priority_classification (Span.new "{SHA}x".data) "{SHA}x".data [] rfl
      (by decide) (Or.inl rfl)⟩

/-- C6: for every table, a user name that is absent maps every submitted
password to `NoSuchUser`. -/
theorem claim_validate_no_such_user (db : PasswordDB)
    (verify : Str → Str → Except BcryptError Bool) (u pw : Str)
    (hget : getHM db u = none) :
    validate db verify u pw = .error (.NotAuthenticated (.NoSuchUser u)) := by
  simp [validate, hget]

/-- Witness for C6: looking up a user in a table that does not contain it. -/
theorem claim_validate_no_such_user_witness :
    getHM [("u".data, PasswordHash.Bcrypt "h".data)] "nobody".data = none
    ∧ validate [("u".data, PasswordHash.Bcrypt "h".data)] (fun _ _ => .ok true)
        "nobody".data "pw".data
        = .error (.NotAuthenticated (.NoSuchUser "nobody".data)) :=
  ⟨by decide,
    claim_validate_no_such_user [("u".data, PasswordHash.Bcrypt "h".data)]
      (fun _ _ => .ok true) "nobody".data "pw".data (by decide)⟩

/-- C7 counterexample: in `"___\nx:$2y$z"` the first record (`"___"`) has no
`':'` on its line, so the claim demands `BadUsername` at offset 0 — but
`is_not!(":")` happily consumes the newline and the parse **succeeds**, with
the two lines fused into the single user name `"___\nx"`. -/
theorem claim_bad_username_counterexample :
    parse_entries "___\nx:$2y$z".data =
      .ok [("___\nx".data, PasswordHash.Bcrypt "$2y$z".data)] := by
  rfl

/-- C7 (amended): after any number of well-formed records (each consumed with
its `'\n'` separator), a remainder that starts with `':'` (empty user name)
**or contains no `':'` anywhere in the rest of the input** fails with
`BadUsername` positioned at the start of that remainder: its byte offset is
the length of the consumed lead-in, its line is one plus the number of
consumed records, its column is 1.  (A colon-less line whose later lines do
contain `':'` is instead absorbed into a multi-line user name, as the
counterexample shows.) -/
theorem claim_bad_username_position (rs : List RecT) (bad : Str)
    (hg : ∀ x ∈ rs, GoodRec x) (hbad : BadStart bad) :
    parse_entries (leadIn rs ++ bad) =
      .error ⟨.BadUsername, utf8Len (leadIn rs), rs.length + 1, 1⟩ :=
  parse_entries_bad rs bad hg hbad

/-- Witness for C7: one good record, then a line starting with `':'`. -/
theorem claim_bad_username_position_witness :
    (∀ x ∈ ([("a".data, "b".data, PasswordHash.Crypt "b".data)] : List RecT), GoodRec x)
    ∧ BadStart (':' :: "x".data)
    ∧ parse_entries (leadIn [("a".data, "b".data, PasswordHash.Crypt "b".data)]
        ++ (':' :: "x".data)) =
      .error ⟨.BadUsername,
        utf8Len (leadIn [("a".data, "b".data, PasswordHash.Crypt "b".data)]), 2, 1⟩ :=
  ⟨by decide, Or.inl ⟨"x".data, rfl⟩,
    claim_bad_username_position [("a".data, "b".data, PasswordHash.Crypt "b".data)]
      (':' :: "x".data) (by decide) (Or.inl ⟨"x".data, rfl⟩)⟩

/-- C8 counterexample: `"a:b\n___"` is one valid record followed by leftover
bytes that do not form a record (after the `"\n"` terminator) — the claim
demands `GarbageAtEnd`, but the parser consumes the `"\n"` as a separator,
attempts `"___"` as a record and reports `BadUsername` instead. -/
theorem claim_garbage_counterexample :
    parse_entries "a:b\n___".data = .error ⟨.BadUsername, 4, 2, 1⟩ := by
  rfl

/-- C8 (amended): after one or more well-formed records, leftover bytes that
the parser does **not** attempt as a further record — i.e. reached after a
`"\r\n"` line ending rather than a `"\n"` separator — produce `GarbageAtEnd`
at the position right after the consumed terminator; they are never silently
dropped.  (Leftovers reached via `"\n"` are attempted as a record and fail
with `BadUsername`/`BadPassword` instead, as the counterexample shows.) -/
theorem claim_garbage_at_end (t : RecT) (ts : List RecT) (g : Str)
    (hg : ∀ x ∈ t :: ts, GoodRec x) (hgne : g ≠ []) :
    parse_entries (listInputT (t :: ts) ('\r' :: '\n' :: g)) =
      .error ⟨.GarbageAtEnd, utf8Len (listInputT (t :: ts) []) + 2, ts.length + 2, 1⟩ :=
  parse_entries_garbage t ts g hg hgne

/-- Witness for C8: one good record, a `"\r\n"` terminator, two junk bytes. -/
theorem claim_garbage_at_end_witness :
    (∀ x ∈ ([("a".data, "b".data, PasswordHash.Crypt "b".data)] : List RecT), GoodRec x)
    ∧ "@@".data ≠ ([] : Str)
    ∧ parse_entries (listInputT [("a".data, "b".data, PasswordHash.Crypt "b".data)]
        ('\r' :: '\n' :: "@@".data)) =
      .error ⟨.GarbageAtEnd,
        utf8Len (listInputT [("a".data, "b".data, PasswordHash.Crypt "b".data)] []) + 2, 2, 1⟩ :=
  ⟨by decide, by decide,
    claim_garbage_at_end ("a".data, "b".data, PasswordHash.Crypt "b".data) [] "@@".data
      (by decide) (by decide)⟩

/-- C9: an input containing two records with the same user name (surrounded
by arbitrary other well-formed records, none rebinding that user later)
parses successfully — duplicates are not rejected — and the resulting table
maps the user name to the hash of the later occurrence. -/
theorem claim_duplicate_last_wins (rs1 rs2 rs3 : List RecT) (u f1 f2 : Str)
    (ph1 ph2 : PasswordHash)
    (hg : ∀ x ∈ rs1 ++ [(u, f1, ph1)] ++ rs2 ++ [(u, f2, ph2)] ++ rs3, GoodRec x)
    (hlast : ∀ x ∈ rs3, x.1 ≠ u) :
    parse_entries (listInputT (rs1 ++ [(u, f1, ph1)] ++ rs2 ++ [(u, f2, ph2)] ++ rs3) []) =
      .ok (collectHM ((rs1 ++ [(u, f1, ph1)] ++ rs2 ++ [(u, f2, ph2)] ++ rs3).map pairOf))
    ∧ getHM (collectHM ((rs1 ++ [(u, f1, ph1)] ++ rs2 ++ [(u, f2, ph2)] ++ rs3).map pairOf)) u
        = some ph2 := by
  constructor
  · apply parse_entries_records_any
    · simp
    · exact hg
  · have hmap : (rs1 ++ [(u, f1, ph1)] ++ rs2 ++ [(u, f2, ph2)] ++ rs3).map pairOf =
        ((rs1 ++ [(u, f1, ph1)] ++ rs2).map pairOf) ++ (u, ph2) :: rs3.map pairOf := by
      simp [pairOf]
    rw [hmap]
    apply getHM_collect_last
    intro p hp
    obtain ⟨x, hx, hxe⟩ := List.mem_map.mp hp
    rw [← hxe]
    exact hlast x hx

/-- Witness for C9: `"a:x\na:$2y$y"` — the same user twice; the later bcrypt
record wins. -/
theorem claim_duplicate_last_wins_witness :
    (∀ x ∈ ([("a".data, "x".data, PasswordHash.Crypt "x".data),
             ("a".data, "$2y$y".data, PasswordHash.Bcrypt "$2y$y".data)] : List RecT),
        GoodRec x)
    ∧ getHM (collectHM (([("a".data, "x".data, PasswordHash.Crypt "x".data),
             ("a".data, "$2y$y".data, PasswordHash.Bcrypt "$2y$y".data)] : List RecT).map
        pairOf)) "a".data = some (PasswordHash.Bcrypt "$2y$y".data) :=
  ⟨by decide,
    (claim_duplicate_last_wins [] [] [] "a".data "x".data "$2y$y".data
      (PasswordHash.Crypt "x".data) (PasswordHash.Bcrypt "$2y$y".data)
      (by decide) (by decide)).2⟩

/-- C10: parsing the empty string does not produce an empty credential table;
it fails with `BadUsername` at offset 0, line 1, column 1, because the
grammar demands at least one record and the user-name parser fails
immediately. -/
theorem claim_empty_input_bad_username :
    parse_entries ([] : Str) = .error ⟨.BadUsername, 0, 1, 1⟩ := by
  rfl

end Htpasswd
